import Mathlib

/-!
Verification of the embedded-CUE playlist plugin
(`src/playlist/EmbeddedCuePlaylistPlugin.cxx`).

The plugin captures the value of a file's "CUESHEET" tag, then lazily
feeds that text line by line into an external CUE parser, rewriting the
URI of every produced song to the base name of the opened file.

The embedding below models:
  * `embcue_tag_pair` / the tag scans as a fold over (name, value) pairs;
  * `embcue_playlist_open_uri` with the three-format fallback chain;
  * `EmbeddedCuePlaylist::Read` with its C-string buffer scanning,
    including the in-place overwriting of line terminators with NUL
    (`*eol = 0`) and the cursor `next`;
  * the external `CueParser` as an abstract record of operations
    (`Feed`, `Get`, `Finish`) over an arbitrary state type, since its
    implementation is outside the excerpt.

Buffers are `List Char`; reading past the end of the list models the
C string's terminating NUL.
-/

/-- The NUL character terminating every C string. -/
def nulChar : Char := Char.ofNat 0

/-- The two line-terminator characters searched by `strpbrk(next, "\r\n")`. -/
def isTermChar (c : Char) : Bool := c == '\r' || c == '\n'

/-- Reading the buffer at an index; out of range models the terminating NUL. -/
def charAt (buf : List Char) (i : Nat) : Char := buf.getD i nulChar

/-- The characters of the C string starting at the head of `l`,
up to (excluding) the first NUL. -/
def cStringL : List Char → List Char
  | [] => []
  | c :: r => if c = nulChar then [] else c :: cStringL r

/-- The C string starting at offset `i` of the buffer. -/
def cString (buf : List Char) (i : Nat) : List Char := cStringL (buf.drop i)

/-- `strpbrk(l, "\r\n")` on a suffix: offset of the first line terminator,
`none` if a NUL (or the end of the buffer) comes first. -/
def strpbrkL : List Char → Option Nat
  | [] => none
  | c :: r =>
    if c = nulChar then none
    else if isTermChar c then some 0
    else (strpbrkL r).map (· + 1)

/-- `strpbrk(buf + i, "\r\n")` as an absolute index into the buffer. -/
def strpbrkIdx (buf : List Char) (i : Nat) : Option Nat :=
  (strpbrkL (buf.drop i)).map (i + ·)

/-- A song record; only the URI field matters to this component
(`Song::ReplaceURI` replaces it, everything else is opaque pass-through). -/
structure Song where
  uri : String
  deriving Repr, DecidableEq

/-- `Song::ReplaceURI`: the song with its URI replaced. -/
def Song.ReplaceURI (s : Song) (u : String) : Song := { s with uri := u }

/-- The external `CueParser`, abstracted as a state machine over an
arbitrary state type: `Feed` consumes one line, `Get` may surrender a
completed song (possibly updating the state), `Finish` flushes. -/
structure ParserOps (σ : Type) where
  feed : σ → List Char → σ
  get : σ → σ × Option Song
  finish : σ → σ

/-- The provider instance `struct EmbeddedCuePlaylist`: `filename` is the
base name stamped onto songs, `cuesheet` the captured tag value (a
mutable NUL-terminated buffer), `next` the offset of the next line. -/
structure EmbeddedCuePlaylist (σ : Type) where
  filename : String
  cuesheet : List Char
  next : Nat
  parser : σ
  deriving Repr

/- ### Tag side -/

/-- `g_ascii_tolower`: lower-case ASCII letters only. -/
def g_ascii_tolower (c : Char) : Char :=
  if 'A' ≤ c ∧ c ≤ 'Z' then Char.ofNat (c.toNat + 32) else c

/-- `g_ascii_strcasecmp(a, b) == 0`: ASCII case-insensitive equality. -/
def g_ascii_strcasecmp_eq (a b : String) : Bool :=
  a.data.map g_ascii_tolower == b.data.map g_ascii_tolower

/-- `embcue_tag_pair`: the tag-handler callback.  If no cuesheet has been
captured yet and the pair's name case-insensitively equals "cuesheet",
capture a copy of the value; otherwise leave the state alone. -/
def embcue_tag_pair (cuesheet : Option String) (name value : String) : Option String :=
  if cuesheet = none ∧ g_ascii_strcasecmp_eq name "cuesheet" = true then some value
  else cuesheet

/-- One tag scan (`tag_file_scan` / `tag_ape_scan2` / `tag_id3_scan`):
the scanner visits every (name, value) pair of the file in order,
invoking `embcue_tag_pair` on each. -/
def scanTags (cuesheet : Option String) (pairs : List (String × String)) : Option String :=
  pairs.foldl (fun cs pr => embcue_tag_pair cs pr.1 pr.2) cuesheet

/-- `g_path_is_absolute` on Unix: the first character is '/'. -/
def g_path_is_absolute (uri : String) : Bool :=
  match uri.data with
  | [] => false
  | c :: _ => c == '/'

/-- `g_path_get_basename` on Unix: "." for the empty string, "/" for a
string of only slashes, otherwise the last component after stripping
trailing slashes. -/
def g_path_get_basename (s : String) : String :=
  if s.data = [] then "."
  else
    let t := (s.data.reverse.dropWhile (· = '/')).reverse
    if t = [] then "/"
    else ⟨(t.reverse.takeWhile (· ≠ '/')).reverse⟩

/-- `embcue_playlist_open_uri`: reject non-absolute URIs, then scan the
three tag formats in the fixed order ID3v2-in-file, APE, ID3v1
(`tag_file_scan`, then `tag_ape_scan2`, then `tag_id3_scan`), each later
scan attempted only while no cuesheet has been captured; fail if no
"CUESHEET" tag was found, otherwise build the provider.  The scanners
themselves are external, so each format's visited pair list is a
parameter; `init` is the fresh `CueParser` state. -/
def embcue_playlist_open_uri {σ : Type} (init : σ) (uri : String)
    (fileTags apeTags id3Tags : List (String × String)) :
    Option (EmbeddedCuePlaylist σ) :=
  if g_path_is_absolute uri = false then none
  else
    let cs0 := scanTags none fileTags
    let cs1 := if cs0 = none then scanTags cs0 apeTags else cs0
    let cs2 := if cs1 = none then scanTags cs1 id3Tags else cs1
    match cs2 with
    | none => none
    | some cs =>
      some { filename := g_path_get_basename uri
             cuesheet := cs.data
             next := 0
             parser := init }

/- ### The read loop and Read -/

/-- Result of the `while (*next != 0)` loop of `EmbeddedCuePlaylist::Read`:
the (possibly mutated) buffer, the new cursor, the parser state, and the
song returned from inside the loop (`none` when the loop exhausted the
buffer and fell through to `Finish`). -/
structure LoopResult (σ : Type) where
  cuesheet : List Char
  next : Nat
  parser : σ
  song : Option Song
  deriving Repr

/-- The `while (*next != 0)` loop of `EmbeddedCuePlaylist::Read`: slice the
next line (writing NUL over its terminator in place, `*eol = 0`), advance
the cursor, feed the line, and return as soon as `Get` yields a song,
with its URI replaced by `filename`. -/
def readLoop {σ : Type} (ops : ParserOps σ) (filename : String)
    (buf : List Char) (next : Nat) (ps : σ) : LoopResult σ :=
  if h0 : charAt buf next = nulChar then
    ⟨buf, next, ps, none⟩
  else
    match h1 : strpbrkIdx buf next with
    | some eol =>
      let buf2 := buf.set eol nulChar
      let line := cString buf2 next
      let pr := ops.get (ops.feed ps line)
      match pr.2 with
      | some song => ⟨buf2, eol + 1, pr.1, some (song.ReplaceURI filename)⟩
      | none => readLoop ops filename buf2 (eol + 1) pr.1
    | none =>
      let line := cString buf next
      let pr := ops.get (ops.feed ps line)
      match pr.2 with
      | some song => ⟨buf, next + line.length, pr.1, some (song.ReplaceURI filename)⟩
      | none => readLoop ops filename buf (next + line.length) pr.1
termination_by buf.length - next
decreasing_by
  · have hb : ∀ (l : List Char) (k : Nat), strpbrkL l = some k → k < l.length := by
      intro l
      induction l with
      | nil => intro k hk; simp [strpbrkL] at hk
      | cons c r ih =>
        intro k hk
        simp only [strpbrkL] at hk
        split at hk
        · simp at hk
        · split at hk
          · cases hk
            simp
          · cases hr : strpbrkL r with
            | none => rw [hr] at hk; simp at hk
            | some k0 =>
              rw [hr] at hk
              simp at hk
              subst hk
              have := ih k0 hr
              simp
              omega
    have h2 : next ≤ eol ∧ eol < buf.length := by
      unfold strpbrkIdx at h1
      cases hr : strpbrkL (buf.drop next) with
      | none => rw [hr] at h1; simp at h1
      | some k =>
        rw [hr] at h1
        simp at h1
        have hk := hb _ _ hr
        rw [List.length_drop] at hk
        omega
    simp only [List.length_set]
    omega
  · have hnl : next < buf.length := by
      by_contra hc
      exact h0 (List.getD_eq_default _ _ (Nat.le_of_not_lt hc))
    have hchar : charAt buf next = buf[next] := List.getD_eq_getElem _ _ hnl
    have hpos : 0 < (cString buf next).length := by
      rw [cString, List.drop_eq_getElem_cons hnl, cStringL,
          if_neg (by rw [← hchar]; exact h0)]
      simp
    omega

/-- `EmbeddedCuePlaylist::Read`: first ask the parser for a song pending
from a prior feed (returned as-is if present), otherwise run the line
loop; if the loop exhausts the buffer, call `Finish` and ask once more,
replacing the URI of any song so obtained. -/
def EmbeddedCuePlaylist.Read {σ : Type} (ops : ParserOps σ)
    (p : EmbeddedCuePlaylist σ) : EmbeddedCuePlaylist σ × Option Song :=
  let g := ops.get p.parser
  match g.2 with
  | some song => ({ p with parser := g.1 }, some song)
  | none =>
    let r := readLoop ops p.filename p.cuesheet p.next g.1
    match r.song with
    | some song =>
      ({ filename := p.filename, cuesheet := r.cuesheet, next := r.next,
         parser := r.parser }, some song)
    | none =>
      let g2 := ops.get (ops.finish r.parser)
      ({ filename := p.filename, cuesheet := r.cuesheet, next := r.next,
         parser := g2.1 }, g2.2.map (fun s => s.ReplaceURI p.filename))

/- ### Instrumentation: observing the provider's calls into the parser -/

/-- Wraps abstract parser operations so the state also records the lines
fed so far and the number of `Finish` invocations. -/
def traceOps {σ : Type} (ops : ParserOps σ) :
    ParserOps (σ × List (List Char) × Nat) :=
  { feed := fun s line => (ops.feed s.1 line, s.2.1 ++ [line], s.2.2)
    get := fun s => (((ops.get s.1).1, s.2.1, s.2.2), (ops.get s.1).2)
    finish := fun s => (ops.finish s.1, s.2.1, s.2.2 + 1) }

/-- A parser that absorbs every line and never produces a song. -/
def nullOps : ParserOps Unit :=
  { feed := fun _ _ => (), get := fun s => (s, none), finish := fun _ => () }

/-- A provider over a given buffer with the traced no-song parser. -/
def tracedProvider (buf : List Char) :
    EmbeddedCuePlaylist (Unit × List (List Char) × Nat) :=
  { filename := "file", cuesheet := buf, next := 0, parser := ((), [], 0) }

/-- All lines the provider feeds to the parser while reading the given
buffer to exhaustion (with a parser that never completes a song, a single
`Read` call scans the whole buffer). -/
def fedLines (buf : List Char) : List (List Char) :=
  ((EmbeddedCuePlaylist.Read (traceOps nullOps) (tracedProvider buf)).1).parser.2.1

/- ### Spec-side line extraction (refinement reference for the feeder) -/

/-- Spec-side reference splitting, for comparison with the loop's fed
lines: following the spec's description of line extraction at the
granularity the code operates at, each single terminator character ends a
line (the terminator is stripped); a final line with no terminator runs
to the end of the buffer; once the text is consumed no further (empty)
line is produced. -/
def specFedLines : List Char → List (List Char)
  | [] => []
  | c :: rest =>
    if isTermChar c then [] :: specFedLines rest
    else
      match specFedLines rest with
      | [] => [[c]]
      | l :: ls => (c :: l) :: ls

/- ### Joining logical lines with a terminator style -/

/-- Joins logical lines with the given terminator sequence between them. -/
def joinWith (sep : List Char) : List (List Char) → List Char
  | [] => []
  | [l] => l
  | l :: l2 :: ls => l ++ sep ++ joinWith sep (l2 :: ls)

/-- A scripted parser: `Get` pops the next result from a script list,
`Feed` and `Finish` leave the script alone. -/
def scriptOps : ParserOps (List (Option Song)) :=
  { feed := fun s _ => s
    get := fun s =>
      match s with
      | [] => ([], none)
      | r :: t => (t, r)
    finish := fun s => s }

/-- A provider whose traced scripted parser holds a pending completed
song. -/
def pendingProvider : EmbeddedCuePlaylist (List (Option Song) × List (List Char) × Nat) :=
  { filename := "f", cuesheet := ['T'], next := 0,
    parser := ([some { uri := "pend" }], [], 0) }

/-- A provider over a one-line cuesheet whose scripted parser yields no
song on the initial Get of the first read, a completed song (with the
CUE sheet's own embedded file reference as URI) after the first feed, and
holds a second completed song pending for the next read. -/
def c1Provider : EmbeddedCuePlaylist (List (Option Song)) :=
  { filename := "album.flac", cuesheet := ['T'], next := 0,
    parser := [none, some { uri := "other.wav" }, some { uri := "embedded.wav" }] }

/- ### Helper facts used by the termination argument of the read loop -/

theorem charAt_eq_nul_of_le {buf : List Char} {i : Nat} (h : buf.length ≤ i) :
    charAt buf i = nulChar :=
  List.getD_eq_default _ _ h

theorem lt_length_of_charAt_ne_nul {buf : List Char} {i : Nat}
    (h : charAt buf i ≠ nulChar) : i < buf.length := by
  by_contra hlt
  exact h (charAt_eq_nul_of_le (Nat.le_of_not_lt hlt))

theorem strpbrkL_some_lt {l : List Char} {k : Nat} (h : strpbrkL l = some k) :
    k < l.length := by
  induction l generalizing k with
  | nil => simp [strpbrkL] at h
  | cons c r ih =>
    simp only [strpbrkL] at h
    split at h
    · simp at h
    · split at h
      · cases h
        simp
      · cases hr : strpbrkL r with
        | none => rw [hr] at h; simp at h
        | some k0 =>
          rw [hr] at h
          simp at h
          subst h
          have := ih hr
          simp
          omega

theorem strpbrkIdx_some {buf : List Char} {i j : Nat} (h : strpbrkIdx buf i = some j) :
    i ≤ j ∧ j < buf.length := by
  unfold strpbrkIdx at h
  cases hr : strpbrkL (buf.drop i) with
  | none => rw [hr] at h; simp at h
  | some k =>
    rw [hr] at h
    simp at h
    have hk := strpbrkL_some_lt hr
    rw [List.length_drop] at hk
    subst h
    omega

theorem cStringL_length_le (l : List Char) : (cStringL l).length ≤ l.length := by
  induction l with
  | nil => simp [cStringL]
  | cons c r ih =>
    simp only [cStringL]
    split
    · simp
    · simpa using Nat.succ_le_succ ih

theorem cString_length_pos {buf : List Char} {i : Nat} (h : charAt buf i ≠ nulChar) :
    0 < (cString buf i).length := by
  have hi : i < buf.length := lt_length_of_charAt_ne_nul h
  have hc : charAt buf i = buf[i] := List.getD_eq_getElem _ _ hi
  unfold cString
  rw [List.drop_eq_getElem_cons hi]
  unfold cStringL
  rw [if_neg (by rw [← hc]; exact h)]
  simp

/- ### Branch equations for the read loop -/

theorem readLoop_exhausted {σ : Type} (ops : ParserOps σ) (fn : String)
    (buf : List Char) (next : Nat) (ps : σ) (h0 : charAt buf next = nulChar) :
    readLoop ops fn buf next ps = ⟨buf, next, ps, none⟩ := by
  rw [readLoop]
  simp [h0]

theorem readLoop_eol_some {σ : Type} (ops : ParserOps σ) (fn : String)
    (buf : List Char) (next : Nat) (ps : σ) {eol : Nat} {song : Song}
    (h0 : charAt buf next ≠ nulChar) (h1 : strpbrkIdx buf next = some eol)
    (hs : (ops.get (ops.feed ps (cString (buf.set eol nulChar) next))).2 = some song) :
    readLoop ops fn buf next ps =
      ⟨buf.set eol nulChar, eol + 1,
       (ops.get (ops.feed ps (cString (buf.set eol nulChar) next))).1,
       some (song.ReplaceURI fn)⟩ := by
  rw [readLoop]
  rw [dif_neg h0]
  split
  · rename_i eol2 heq
    rw [h1] at heq
    cases heq
    dsimp only
    split
    · rename_i song2 heq2
      rw [hs] at heq2
      cases heq2
      rfl
    · rename_i heq2
      rw [hs] at heq2
      cases heq2
  · rename_i heq
    rw [h1] at heq
    cases heq

theorem readLoop_eol_none {σ : Type} (ops : ParserOps σ) (fn : String)
    (buf : List Char) (next : Nat) (ps : σ) {eol : Nat}
    (h0 : charAt buf next ≠ nulChar) (h1 : strpbrkIdx buf next = some eol)
    (hs : (ops.get (ops.feed ps (cString (buf.set eol nulChar) next))).2 = none) :
    readLoop ops fn buf next ps =
      readLoop ops fn (buf.set eol nulChar) (eol + 1)
        (ops.get (ops.feed ps (cString (buf.set eol nulChar) next))).1 := by
  rw [readLoop]
  rw [dif_neg h0]
  split
  · rename_i eol2 heq
    rw [h1] at heq
    cases heq
    dsimp only
    split
    · rename_i song2 heq2
      rw [hs] at heq2
      cases heq2
    · rfl
  · rename_i heq
    rw [h1] at heq
    cases heq

theorem readLoop_noeol_some {σ : Type} (ops : ParserOps σ) (fn : String)
    (buf : List Char) (next : Nat) (ps : σ) {song : Song}
    (h0 : charAt buf next ≠ nulChar) (h1 : strpbrkIdx buf next = none)
    (hs : (ops.get (ops.feed ps (cString buf next))).2 = some song) :
    readLoop ops fn buf next ps =
      ⟨buf, next + (cString buf next).length,
       (ops.get (ops.feed ps (cString buf next))).1, some (song.ReplaceURI fn)⟩ := by
  rw [readLoop]
  rw [dif_neg h0]
  split
  · rename_i eol2 heq
    rw [h1] at heq
    cases heq
  · dsimp only
    split
    · rename_i song2 heq2
      rw [hs] at heq2
      cases heq2
      rfl
    · rename_i heq2
      rw [hs] at heq2
      cases heq2

theorem readLoop_noeol_none {σ : Type} (ops : ParserOps σ) (fn : String)
    (buf : List Char) (next : Nat) (ps : σ)
    (h0 : charAt buf next ≠ nulChar) (h1 : strpbrkIdx buf next = none)
    (hs : (ops.get (ops.feed ps (cString buf next))).2 = none) :
    readLoop ops fn buf next ps =
      readLoop ops fn buf (next + (cString buf next).length)
        (ops.get (ops.feed ps (cString buf next))).1 := by
  rw [readLoop]
  rw [dif_neg h0]
  split
  · rename_i eol2 heq
    rw [h1] at heq
    cases heq
  · dsimp only
    split
    · rename_i song2 heq2
      rw [hs] at heq2
      cases heq2
    · rfl

/- ### Character-level helper lemmas -/

theorem charAt_set_self {buf : List Char} {e : Nat} (h : e < buf.length) (c : Char) :
    charAt (buf.set e c) e = c := by
  simp [charAt, List.getD_eq_getElem?_getD, List.getElem?_set, h]

theorem charAt_set_ne {buf : List Char} {e j : Nat} (h : e ≠ j) (c : Char) :
    charAt (buf.set e c) j = charAt buf j := by
  simp [charAt, List.getD_eq_getElem?_getD, List.getElem?_set_ne h]

theorem strpbrkL_some_spec {l : List Char} {k : Nat} (h : strpbrkL l = some k) :
    k < l.length ∧ isTermChar (l.getD k nulChar) = true ∧
      ∀ m, m < k → isTermChar (l.getD m nulChar) = false ∧ l.getD m nulChar ≠ nulChar := by
  induction l generalizing k with
  | nil => simp [strpbrkL] at h
  | cons c r ih =>
    simp only [strpbrkL] at h
    split at h
    · simp at h
    · rename_i hcnul
      split at h
      · rename_i hterm
        cases h
        refine ⟨by simp, by simpa using hterm, ?_⟩
        intro m hm
        omega
      · rename_i hterm
        cases hr : strpbrkL r with
        | none => rw [hr] at h; simp at h
        | some k0 =>
          rw [hr] at h
          simp at h
          subst h
          obtain ⟨hk1, hk2, hk3⟩ := ih hr
          refine ⟨by simpa using hk1, by simpa using hk2, ?_⟩
          intro m hm
          cases m with
          | zero =>
            exact ⟨by simpa using hterm, by simpa using hcnul⟩
          | succ m0 =>
            simpa using hk3 m0 (by omega)

theorem strpbrkL_none_clean {l : List Char} (h : strpbrkL l = none) (hn : nulChar ∉ l) :
    ∀ c ∈ l, isTermChar c = false := by
  induction l with
  | nil => simp
  | cons c r ih =>
    simp only [strpbrkL] at h
    split at h
    · rename_i hc
      exact absurd (hc ▸ List.mem_cons_self c r) hn
    · rename_i hcnul
      split at h
      · simp at h
      · rename_i hterm
        simp only [Option.map_eq_none'] at h
        intro x hx
        rcases List.mem_cons.1 hx with hx | hx
        · subst hx
          simpa using hterm
        · exact ih h (fun hm => hn (List.mem_cons_of_mem _ hm)) x hx

theorem cStringL_of_not_mem {l : List Char} (h : nulChar ∉ l) : cStringL l = l := by
  induction l with
  | nil => rfl
  | cons c r ih =>
    rw [cStringL, if_neg (fun hc : c = nulChar => h (hc ▸ List.mem_cons_self c r)),
        ih (fun hm => h (List.mem_cons_of_mem _ hm))]

theorem cStringL_append_nul {l1 l2 : List Char} (h : nulChar ∉ l1) :
    cStringL (l1 ++ nulChar :: l2) = l1 := by
  induction l1 with
  | nil => simp [cStringL]
  | cons c r ih =>
    rw [List.cons_append, cStringL, if_neg (fun hc : c = nulChar => h (hc ▸ List.mem_cons_self c r)),
        ih (fun hm => h (List.mem_cons_of_mem _ hm))]

theorem drop_set_add (buf : List Char) (i k : Nat) (c : Char) :
    (buf.set (i + k) c).drop i = (buf.drop i).set k c := by
  apply List.ext_getElem?
  intro j
  rw [List.getElem?_drop, List.getElem?_set, List.getElem?_set, List.getElem?_drop,
      List.length_drop]
  by_cases hkj : k = j
  · subst hkj
    rw [if_pos rfl, if_pos rfl]
    by_cases hik : i + k < buf.length
    · rw [if_pos hik, if_pos (by omega)]
    · rw [if_neg hik, if_neg (by omega)]
  · rw [if_neg hkj, if_neg (by omega)]

theorem drop_set_of_lt (l : List Char) {e j : Nat} (c : Char) (h : e < j) :
    (l.set e c).drop j = l.drop j := by
  apply List.ext_getElem?
  intro m
  rw [List.getElem?_drop, List.getElem?_drop, List.getElem?_set_ne (by omega)]

theorem specFedLines_no_term {l : List Char} (hne : l ≠ [])
    (h : ∀ c ∈ l, isTermChar c = false) : specFedLines l = [l] := by
  induction l with
  | nil => exact absurd rfl hne
  | cons c r ih =>
    rw [specFedLines, if_neg (by simp [h c (List.mem_cons_self c r)])]
    cases r with
    | nil => rfl
    | cons c2 r2 =>
      rw [ih (by simp) (fun x hx => h x (List.mem_cons_of_mem _ hx))]

theorem specFedLines_append_term {p rest : List Char} {t : Char}
    (hp : ∀ c ∈ p, isTermChar c = false) (ht : isTermChar t = true) :
    specFedLines (p ++ t :: rest) = p :: specFedLines rest := by
  induction p with
  | nil => simp [specFedLines, ht]
  | cons c p0 ih =>
    rw [List.cons_append, specFedLines,
        if_neg (by simp [hp c (List.mem_cons_self c p0)]),
        ih (fun x hx => hp x (List.mem_cons_of_mem _ hx))]

theorem mem_take_getD {l : List Char} {k : Nat} {x : Char} (hx : x ∈ l.take k) :
    ∃ m, m < k ∧ m < l.length ∧ l.getD m nulChar = x := by
  obtain ⟨m, hm, hgx⟩ := List.getElem_of_mem hx
  have hlen : (l.take k).length = min k l.length := List.length_take k l
  refine ⟨m, by omega, by omega, ?_⟩
  rw [List.getD_eq_getElem _ _ (by omega)]
  rw [← hgx, List.getElem_take]

theorem charAt_of_drop_cons {buf : List Char} {next : Nat} {x : Char} {xs : List Char}
    (hd : buf.drop next = x :: xs) : charAt buf next = x := by
  have h2 : (buf.drop next)[0]? = some x := by rw [hd]; simp
  rw [List.getElem?_drop] at h2
  simp only [Nat.add_zero] at h2
  rw [charAt, List.getD_eq_getElem?_getD, h2]
  rfl

theorem drop_eq_nil_of_charAt_nul {buf : List Char} {next : Nat}
    (h0 : charAt buf next = nulChar) (hn : nulChar ∉ buf.drop next) :
    buf.drop next = [] := by
  cases hd : buf.drop next with
  | nil => rfl
  | cons x xs =>
    exfalso
    apply hn
    rw [hd]
    have hx := charAt_of_drop_cons hd
    rw [h0] at hx
    rw [← hx]
    exact List.mem_cons_self _ _

theorem drop_ne_nil_of_charAt_ne_nul {buf : List Char} {next : Nat}
    (h0 : charAt buf next ≠ nulChar) : buf.drop next ≠ [] := by
  intro hd
  have hlen : buf.length ≤ next := by
    have := List.drop_eq_nil_iff.1 hd
    omega
  exact h0 (charAt_eq_nul_of_le hlen)

theorem traceGet (s : Unit × List (List Char) × Nat) :
    (traceOps nullOps).get s = (s, none) := rfl

theorem traceFeed (s : Unit × List (List Char) × Nat) (line : List Char) :
    (traceOps nullOps).feed s line = ((), s.2.1 ++ [line], s.2.2) := rfl

/-- With a parser that never completes a song, the loop feeds exactly the
spec-side line splitting of the unconsumed suffix, in order, and falls
through to the finish path. -/
theorem readLoop_fed_spec (fn : String) :
    ∀ (buf : List Char) (next : Nat) (ps : Unit × List (List Char) × Nat),
      nulChar ∉ buf.drop next →
      (readLoop (traceOps nullOps) fn buf next ps).parser.2.1
          = ps.2.1 ++ specFedLines (buf.drop next)
      ∧ (readLoop (traceOps nullOps) fn buf next ps).song = none
      ∧ (readLoop (traceOps nullOps) fn buf next ps).parser.2.2 = ps.2.2 := by
  intro buf next ps
  induction buf, next, ps using readLoop.induct (traceOps nullOps) fn with
  | case1 buf next ps h0 =>
    intro hn
    rw [readLoop_exhausted _ _ _ _ _ h0]
    rw [drop_eq_nil_of_charAt_nul h0 hn]
    simp [specFedLines]
  | case2 buf next ps h0 eol h1 buf2 line pr song hsong =>
    intro _
    unfold pr line buf2 at hsong
    rw [traceGet] at hsong
    simp at hsong
  | case3 buf next ps h0 eol h1 buf2 line pr hnone ih =>
    intro hn
    unfold pr line buf2 at ih
    obtain ⟨k, hk, rfl⟩ : ∃ k, strpbrkL (buf.drop next) = some k ∧ eol = next + k := by
      unfold strpbrkIdx at h1
      cases hsl : strpbrkL (buf.drop next) with
      | none => rw [hsl] at h1; simp at h1
      | some k0 => rw [hsl] at h1; simp at h1; exact ⟨k0, rfl, h1.symm⟩
    obtain ⟨hkl, hkterm, hkpre⟩ := strpbrkL_some_spec hk
    rw [readLoop_eol_none _ _ _ _ _ h0 h1 (by rw [traceGet])]
    -- the suffix of the mutated buffer
    have hdrop2 : (buf.set (next + k) nulChar).drop next
        = (buf.drop next).take k ++ nulChar :: (buf.drop next).drop (k + 1) := by
      rw [drop_set_add, List.set_eq_take_cons_drop _ hkl]
    -- the fed line is the terminator-free segment before position k
    have hline : cString (buf.set (next + k) nulChar) next = (buf.drop next).take k := by
      rw [cString, hdrop2, cStringL_append_nul]
      intro hmem
      exact hn (List.take_subset _ _ hmem)
    -- the suffix after the consumed line, unaffected by the NUL write
    have hdrop3 : (buf.set (next + k) nulChar).drop (next + k + 1)
        = (buf.drop next).drop (k + 1) := by
      rw [drop_set_of_lt _ _ (by omega), List.drop_drop, Nat.add_assoc]
    have hn3 : nulChar ∉ (buf.set (next + k) nulChar).drop (next + k + 1) := by
      rw [hdrop3]
      intro hmem
      exact hn (List.drop_subset _ _ hmem)
    obtain ⟨ih1, ih2, ih3⟩ := ih hn3
    -- the spec splitting peels off exactly that segment
    have hpre : ∀ x ∈ (buf.drop next).take k, isTermChar x = false := by
      intro x hx
      obtain ⟨m, hm1, hm2, hm3⟩ := mem_take_getD hx
      rw [← hm3]
      exact (hkpre m hm1).1
    have hfull : (buf.drop next).take k
          ++ (buf.drop next).getD k nulChar :: (buf.drop next).drop (k + 1)
        = buf.drop next := by
      rw [List.getD_eq_getElem _ _ hkl]
      rw [← List.drop_eq_getElem_cons hkl, List.take_append_drop]
    have hsplit : specFedLines (buf.drop next)
        = (buf.drop next).take k :: specFedLines ((buf.drop next).drop (k + 1)) := by
      conv_lhs => rw [← hfull]
      exact specFedLines_append_term hpre hkterm
    refine ⟨?_, ?_, ?_⟩
    · rw [ih1, traceGet, traceFeed, hline, hsplit, hdrop3]
      simp
    · exact ih2
    · rw [ih3, traceGet, traceFeed]
  | case4 buf next ps h0 h1 line pr song hsong =>
    intro _
    unfold pr line at hsong
    rw [traceGet] at hsong
    simp at hsong
  | case5 buf next ps h0 h1 line pr hnone ih =>
    intro hn
    have hsl : strpbrkL (buf.drop next) = none := by
      unfold strpbrkIdx at h1
      cases hsl : strpbrkL (buf.drop next) with
      | none => rfl
      | some k0 => rw [hsl] at h1; simp at h1
    have hterm := strpbrkL_none_clean hsl hn
    have hline : cString buf next = buf.drop next := by
      rw [cString, cStringL_of_not_mem hn]
    have hne : buf.drop next ≠ [] := drop_ne_nil_of_charAt_ne_nul h0
    have hnext2 : charAt buf (next + (cString buf next).length) = nulChar := by
      apply charAt_eq_nul_of_le
      rw [hline, List.length_drop]
      have := lt_length_of_charAt_ne_nul h0
      omega
    rw [readLoop_noeol_none _ _ _ _ _ h0 h1 (by rw [traceGet])]
    rw [readLoop_exhausted _ _ _ _ _ hnext2]
    rw [traceGet, traceFeed, hline, specFedLines_no_term hne hterm]
    exact ⟨rfl, rfl, rfl⟩

theorem traceFinish (s : Unit × List (List Char) × Nat) :
    (traceOps nullOps).finish s = ((), s.2.1, s.2.2 + 1) := rfl

/- ### Path equations for Read -/

/-- Drain path: a song already pending in the parser is returned as-is. -/
theorem Read_pending {σ : Type} (ops : ParserOps σ) (p : EmbeddedCuePlaylist σ)
    {song : Song} (hg : (ops.get p.parser).2 = some song) :
    EmbeddedCuePlaylist.Read ops p
      = ({ p with parser := (ops.get p.parser).1 }, some song) := by
  unfold EmbeddedCuePlaylist.Read
  try dsimp only
  split
  · rename_i song2 heq
    rw [hg] at heq
    cases heq
    rfl
  · rename_i heq
    rw [hg] at heq
    cases heq

/-- Loop path: no pending song, and the loop produces one. -/
theorem Read_loop_song {σ : Type} (ops : ParserOps σ) (p : EmbeddedCuePlaylist σ)
    {song : Song}
    (hg : (ops.get p.parser).2 = none)
    (hl : (readLoop ops p.filename p.cuesheet p.next (ops.get p.parser).1).song
            = some song) :
    EmbeddedCuePlaylist.Read ops p
      = ({ filename := p.filename,
           cuesheet :=
             (readLoop ops p.filename p.cuesheet p.next (ops.get p.parser).1).cuesheet,
           next := (readLoop ops p.filename p.cuesheet p.next (ops.get p.parser).1).next,
           parser :=
             (readLoop ops p.filename p.cuesheet p.next (ops.get p.parser).1).parser },
         some song) := by
  unfold EmbeddedCuePlaylist.Read
  try dsimp only
  split
  · rename_i song2 heq
    rw [hg] at heq
    cases heq
  · rename_i heq
    rw [hg] at heq
    cases heq
    try dsimp only
    split
    · rename_i song2 heq2
      rw [hl] at heq2
      cases heq2
      rfl
    · rename_i heq2
      rw [hl] at heq2
      cases heq2

/-- Finish path: no pending song and the loop exhausts the buffer, so
`Finish` is called and `Get` consulted one final time. -/
theorem Read_finish_path {σ : Type} (ops : ParserOps σ) (p : EmbeddedCuePlaylist σ)
    (hg : (ops.get p.parser).2 = none)
    (hl : (readLoop ops p.filename p.cuesheet p.next (ops.get p.parser).1).song = none) :
    EmbeddedCuePlaylist.Read ops p
      = ({ filename := p.filename,
           cuesheet :=
             (readLoop ops p.filename p.cuesheet p.next (ops.get p.parser).1).cuesheet,
           next := (readLoop ops p.filename p.cuesheet p.next (ops.get p.parser).1).next,
           parser :=
             (ops.get (ops.finish
               (readLoop ops p.filename p.cuesheet p.next (ops.get p.parser).1).parser)).1 },
         (ops.get (ops.finish
            (readLoop ops p.filename p.cuesheet p.next (ops.get p.parser).1).parser)).2.map
           (fun s => s.ReplaceURI p.filename)) := by
  unfold EmbeddedCuePlaylist.Read
  try dsimp only
  split
  · rename_i song2 heq
    rw [hg] at heq
    cases heq
  · rename_i heq
    rw [hg] at heq
    cases heq
    try dsimp only
    split
    · rename_i song2 heq2
      rw [hl] at heq2
      cases heq2
    · rfl

theorem fedLines_eq_spec {buf : List Char} (hn : nulChar ∉ buf) :
    fedLines buf = specFedLines buf := by
  obtain ⟨h1, h2, h3⟩ := readLoop_fed_spec "file" buf 0 ((), [], 0) (by simpa using hn)
  rw [fedLines]
  rw [Read_finish_path (traceOps nullOps) (tracedProvider buf) (by rw [traceGet]) h2]
  simp [tracedProvider, traceGet, traceFinish, h1]

theorem nul_not_mem_joinWith {sep : List Char} (hsep : nulChar ∉ sep) :
    ∀ {ls : List (List Char)}, (∀ l ∈ ls, nulChar ∉ l) → nulChar ∉ joinWith sep ls := by
  intro ls
  induction ls with
  | nil => intro _; simp [joinWith]
  | cons l ls0 ih =>
    intro h
    cases ls0 with
    | nil => exact h l (List.mem_cons_self _ _)
    | cons l2 ls1 =>
      rw [joinWith]
      intro hmem
      rcases List.mem_append.1 hmem with hmem | hmem
      · rcases List.mem_append.1 hmem with hmem | hmem
        · exact h l (List.mem_cons_self _ _) hmem
        · exact hsep hmem
      · exact ih (fun x hx => h x (List.mem_cons_of_mem _ hx)) hmem

theorem specFed_join_lf :
    ∀ (ls : List (List Char)), (∀ l ∈ ls, ∀ c ∈ l, isTermChar c = false) →
      (specFedLines (joinWith ['\n'] ls)).filter (fun l => !l.isEmpty)
        = ls.filter (fun l => !l.isEmpty) := by
  intro ls
  induction ls with
  | nil => intro _; simp [joinWith, specFedLines]
  | cons l ls0 ih =>
    intro h
    cases ls0 with
    | nil =>
      cases hl : l.isEmpty
      · rw [joinWith,
            specFedLines_no_term (by simpa [List.isEmpty_iff] using hl)
              (h l (List.mem_cons_self _ _))]
      · rw [List.isEmpty_iff] at hl
        subst hl
        simp [joinWith, specFedLines]
    | cons l2 ls1 =>
      have hjoin : joinWith ['\n'] (l :: l2 :: ls1)
          = l ++ '\n' :: joinWith ['\n'] (l2 :: ls1) := by
        rw [joinWith]
        simp
      rw [hjoin,
          specFedLines_append_term (h l (List.mem_cons_self _ _)) (by decide),
          List.filter_cons, List.filter_cons,
          ih (fun x hx => h x (List.mem_cons_of_mem _ hx))]

theorem specFed_join_crlf :
    ∀ (ls : List (List Char)), (∀ l ∈ ls, ∀ c ∈ l, isTermChar c = false) →
      (specFedLines (joinWith ['\r', '\n'] ls)).filter (fun l => !l.isEmpty)
        = ls.filter (fun l => !l.isEmpty) := by
  intro ls
  induction ls with
  | nil => intro _; simp [joinWith, specFedLines]
  | cons l ls0 ih =>
    intro h
    cases ls0 with
    | nil =>
      cases hl : l.isEmpty
      · rw [joinWith,
            specFedLines_no_term (by simpa [List.isEmpty_iff] using hl)
              (h l (List.mem_cons_self _ _))]
      · rw [List.isEmpty_iff] at hl
        subst hl
        simp [joinWith, specFedLines]
    | cons l2 ls1 =>
      have hjoin : joinWith ['\r', '\n'] (l :: l2 :: ls1)
          = l ++ '\r' :: '\n' :: joinWith ['\r', '\n'] (l2 :: ls1) := by
        rw [joinWith]
        simp
      rw [hjoin,
          specFedLines_append_term (h l (List.mem_cons_self _ _)) (by decide)]
      have hnl : specFedLines ('\n' :: joinWith ['\r', '\n'] (l2 :: ls1))
          = [] :: specFedLines (joinWith ['\r', '\n'] (l2 :: ls1)) := by
        rw [specFedLines, if_pos (by decide)]
      rw [hnl, List.filter_cons, List.filter_cons, List.filter_cons,
          ih (fun x hx => h x (List.mem_cons_of_mem _ hx))]
      cases l.isEmpty <;> simp

/- ### Tag-selector and open-sequence facts -/

theorem scanTags_some (v : String) (pairs : List (String × String)) :
    scanTags (some v) pairs = some v := by
  induction pairs with
  | nil => rfl
  | cons pr rest ih =>
    simp only [scanTags, List.foldl_cons]
    have h1 : embcue_tag_pair (some v) pr.1 pr.2 = some v := by
      simp [embcue_tag_pair]
    rw [h1]
    exact ih

theorem scanTags_none_find (pairs : List (String × String)) :
    scanTags none pairs
      = (pairs.find? (fun pr => g_ascii_strcasecmp_eq pr.1 "cuesheet")).map Prod.snd := by
  induction pairs with
  | nil => rfl
  | cons pr rest ih =>
    by_cases hc : g_ascii_strcasecmp_eq pr.1 "cuesheet" = true
    · rw [@List.find?_cons_of_pos _ (fun pr => g_ascii_strcasecmp_eq pr.1 "cuesheet") pr rest hc]
      have h1 : embcue_tag_pair none pr.1 pr.2 = some pr.2 := by
        simp [embcue_tag_pair, hc]
      simp only [scanTags, List.foldl_cons, h1]
      have h2 := scanTags_some pr.2 rest
      simp only [scanTags] at h2
      rw [h2]
      rfl
    · rw [@List.find?_cons_of_neg _ (fun pr => g_ascii_strcasecmp_eq pr.1 "cuesheet") pr rest (by simp [hc])]
      have h1 : embcue_tag_pair none pr.1 pr.2 = none := by
        simp [embcue_tag_pair, hc]
      simp only [scanTags, List.foldl_cons, h1]
      exact ih

/-- C6: given the stream of (name, value) pairs a scan visits, the Tag
Selector captures exactly the value of the first pair whose name
case-insensitively equals "CUESHEET" (`find?` of the stream), and once a
value is captured every later pair, matching or not, leaves it unchanged,
so at most one capture occurs. -/
theorem embcue_tag_selector_first_match :
    (∀ (v : String) (pairs : List (String × String)), scanTags (some v) pairs = some v)
    ∧ (∀ pairs : List (String × String),
        scanTags none pairs
          = (pairs.find? (fun pr => g_ascii_strcasecmp_eq pr.1 "cuesheet")).map Prod.snd) :=
  ⟨scanTags_some, scanTags_none_find⟩

/-- C4: a URI that is not an absolute local path is rejected immediately:
`open` returns absent for every possible tag content of the three
formats, which are never consulted. -/
theorem embcue_open_nonabsolute {σ : Type} (init : σ) (uri : String)
    (A B C : List (String × String)) (h : g_path_is_absolute uri = false) :
    embcue_playlist_open_uri init uri A B C = none := by
  simp [embcue_playlist_open_uri, h]

theorem embcue_open_nonabsolute_witness :
    g_path_is_absolute "album.flac" = false ∧
    embcue_playlist_open_uri () "album.flac" [("CUESHEET", "TRACK 01")] [] [] = none :=
  ⟨by decide, embcue_open_nonabsolute () "album.flac" _ _ _ (by decide)⟩

/-- C5: for an absolute URI the three formats are consulted in the fixed
order A, B, C, stopping at the first scan after which a value has been
captured: if format A yields a value it is used whatever B and C hold; B
is consulted only if A yields none, C only if A and B both yield none. -/
theorem embcue_open_priority {σ : Type} (init : σ) (uri : String)
    (habs : g_path_is_absolute uri = true) :
    (∀ (v : String) (A B C : List (String × String)), scanTags none A = some v →
        embcue_playlist_open_uri init uri A B C
          = some { filename := g_path_get_basename uri, cuesheet := v.data,
                   next := 0, parser := init })
    ∧ (∀ (v : String) (A B C : List (String × String)),
        scanTags none A = none → scanTags none B = some v →
        embcue_playlist_open_uri init uri A B C
          = some { filename := g_path_get_basename uri, cuesheet := v.data,
                   next := 0, parser := init })
    ∧ (∀ (v : String) (A B C : List (String × String)),
        scanTags none A = none → scanTags none B = none → scanTags none C = some v →
        embcue_playlist_open_uri init uri A B C
          = some { filename := g_path_get_basename uri, cuesheet := v.data,
                   next := 0, parser := init }) := by
  refine ⟨?_, ?_, ?_⟩
  · intro v A B C h1
    simp [embcue_playlist_open_uri, habs, h1]
  · intro v A B C h1 h2
    simp [embcue_playlist_open_uri, habs, h1, h2]
  · intro v A B C h1 h2 h3
    simp [embcue_playlist_open_uri, habs, h1, h2, h3]

theorem embcue_open_priority_witness :
    g_path_is_absolute "/a.flac" = true ∧
    embcue_playlist_open_uri () "/a.flac" [("CUESHEET", "X")] [("cuesheet", "Y")] []
      = some { filename := g_path_get_basename "/a.flac", cuesheet := "X".data,
               next := 0, parser := () } :=
  ⟨by decide, (embcue_open_priority () "/a.flac" (by decide)).1 "X" _ _ _ (by decide)⟩

/-- C7 counterexample: an empty captured "CUESHEET" value does not make
`open` fail — the provider is created with an empty cuesheet buffer. -/
theorem embcue_open_empty_cuesheet_cex :
    embcue_playlist_open_uri () "/a.flac" [("CUESHEET", "")] [] []
      = some { filename := "a.flac", cuesheet := [], next := 0, parser := () } := by
  rfl

/-- C7 (amended): for structural absence only of the tag itself — `open`
returns absent exactly when the URI is not absolute or no format's scan
yields a "CUESHEET" value; a captured empty CUE sheet still opens. -/
theorem embcue_open_none_iff {σ : Type} (init : σ) (uri : String)
    (A B C : List (String × String)) :
    embcue_playlist_open_uri init uri A B C = none ↔
      (g_path_is_absolute uri = false ∨
        (scanTags none A = none ∧ scanTags none B = none ∧ scanTags none C = none)) := by
  by_cases habs : g_path_is_absolute uri = false
  · simp [embcue_playlist_open_uri, habs]
  · cases hA : scanTags none A with
    | some v => simp [embcue_playlist_open_uri, habs, hA]
    | none =>
      cases hB : scanTags none B with
      | some v => simp [embcue_playlist_open_uri, habs, hA, hB]
      | none =>
        cases hC : scanTags none C with
        | some v => simp [embcue_playlist_open_uri, habs, hA, hB, hC]
        | none => simp [embcue_playlist_open_uri, habs, hA, hB, hC]

/- ### Further loop lemmas: exhaustion, mutation frame, iteration bounds -/

theorem strpbrkIdx_decomp {buf : List Char} {next eol : Nat}
    (h1 : strpbrkIdx buf next = some eol) :
    ∃ k, strpbrkL (buf.drop next) = some k ∧ eol = next + k := by
  unfold strpbrkIdx at h1
  cases hsl : strpbrkL (buf.drop next) with
  | none => rw [hsl] at h1; simp at h1
  | some k0 => rw [hsl] at h1; simp at h1; exact ⟨k0, rfl, h1.symm⟩

theorem charAt_drop_add (buf : List Char) (i k : Nat) :
    charAt buf (i + k) = charAt (buf.drop i) k := by
  rw [charAt, charAt, List.getD_eq_getElem?_getD, List.getD_eq_getElem?_getD,
      List.getElem?_drop]

theorem strpbrkIdx_term {buf : List Char} {next eol : Nat}
    (h1 : strpbrkIdx buf next = some eol) : isTermChar (charAt buf eol) = true := by
  obtain ⟨k, hk, rfl⟩ := strpbrkIdx_decomp h1
  obtain ⟨hkl, hkterm, hkpre⟩ := strpbrkL_some_spec hk
  rw [charAt_drop_add]
  exact hkterm

theorem readLoop_song_none_of_get_none {σ : Type} (ops : ParserOps σ) (fn : String)
    (hget : ∀ s, (ops.get s).2 = none) :
    ∀ buf next ps, (readLoop ops fn buf next ps).song = none := by
  intro buf next ps
  induction buf, next, ps using readLoop.induct ops fn with
  | case1 buf next ps h0 =>
    rw [readLoop_exhausted _ _ _ _ _ h0]
  | case2 buf next ps h0 eol h1 buf2 line pr song hsong =>
    unfold pr line buf2 at hsong
    rw [hget] at hsong
    cases hsong
  | case3 buf next ps h0 eol h1 buf2 line pr hnone ih =>
    unfold pr line buf2 at hnone ih
    rw [readLoop_eol_none _ _ _ _ _ h0 h1 hnone]
    exact ih
  | case4 buf next ps h0 h1 line pr song hsong =>
    unfold pr line at hsong
    rw [hget] at hsong
    cases hsong
  | case5 buf next ps h0 h1 line pr hnone ih =>
    unfold pr line at hnone ih
    rw [readLoop_noeol_none _ _ _ _ _ h0 h1 hnone]
    exact ih

theorem readLoop_none_exhausted {σ : Type} (ops : ParserOps σ) (fn : String) :
    ∀ buf next ps, (readLoop ops fn buf next ps).song = none →
      charAt (readLoop ops fn buf next ps).cuesheet
          (readLoop ops fn buf next ps).next = nulChar := by
  intro buf next ps
  induction buf, next, ps using readLoop.induct ops fn with
  | case1 buf next ps h0 =>
    intro _
    rw [readLoop_exhausted _ _ _ _ _ h0]
    exact h0
  | case2 buf next ps h0 eol h1 buf2 line pr song hsong =>
    intro hl
    unfold pr line buf2 at hsong
    rw [readLoop_eol_some _ _ _ _ _ h0 h1 hsong] at hl
    cases hl
  | case3 buf next ps h0 eol h1 buf2 line pr hnone ih =>
    intro hl
    unfold pr line buf2 at hnone ih
    rw [readLoop_eol_none _ _ _ _ _ h0 h1 hnone] at hl ⊢
    exact ih hl
  | case4 buf next ps h0 h1 line pr song hsong =>
    intro hl
    unfold pr line at hsong
    rw [readLoop_noeol_some _ _ _ _ _ h0 h1 hsong] at hl
    cases hl
  | case5 buf next ps h0 h1 line pr hnone ih =>
    intro hl
    unfold pr line at hnone ih
    rw [readLoop_noeol_none _ _ _ _ _ h0 h1 hnone] at hl ⊢
    exact ih hl

theorem readLoop_buffer_frame {σ : Type} (ops : ParserOps σ) (fn : String) :
    ∀ buf next ps,
      (readLoop ops fn buf next ps).cuesheet.length = buf.length
      ∧ next ≤ (readLoop ops fn buf next ps).next
      ∧ ∀ j, charAt (readLoop ops fn buf next ps).cuesheet j = charAt buf j
          ∨ (next ≤ j ∧ j < (readLoop ops fn buf next ps).next
             ∧ isTermChar (charAt buf j) = true
             ∧ charAt (readLoop ops fn buf next ps).cuesheet j = nulChar) := by
  intro buf next ps
  induction buf, next, ps using readLoop.induct ops fn with
  | case1 buf next ps h0 =>
    rw [readLoop_exhausted _ _ _ _ _ h0]
    exact ⟨rfl, Nat.le_refl _, fun j => Or.inl rfl⟩
  | case2 buf next ps h0 eol h1 buf2 line pr song hsong =>
    unfold pr line buf2 at hsong
    rw [readLoop_eol_some _ _ _ _ _ h0 h1 hsong]
    obtain ⟨hle, hlt⟩ := strpbrkIdx_some h1
    dsimp only
    refine ⟨List.length_set _ _ _, by omega, ?_⟩
    intro j
    by_cases hj : eol = j
    · subst hj
      exact Or.inr ⟨hle, by omega, strpbrkIdx_term h1, charAt_set_self hlt _⟩
    · exact Or.inl (charAt_set_ne hj _)
  | case3 buf next ps h0 eol h1 buf2 line pr hnone ih =>
    unfold pr line buf2 at hnone ih
    rw [readLoop_eol_none _ _ _ _ _ h0 h1 hnone]
    obtain ⟨hle, hlt⟩ := strpbrkIdx_some h1
    obtain ⟨ihlen, ihnext, ihj⟩ := ih
    refine ⟨by rw [ihlen, List.length_set], by omega, ?_⟩
    intro j
    by_cases hj : eol = j
    · subst hj
      rcases ihj eol with hc | hc
      · refine Or.inr ⟨hle, by omega, strpbrkIdx_term h1, ?_⟩
        rw [hc, charAt_set_self hlt]
      · refine Or.inr ⟨hle, by omega, strpbrkIdx_term h1, hc.2.2.2⟩
    · rcases ihj j with hc | hc
      · rw [charAt_set_ne hj _] at hc
        exact Or.inl hc
      · rw [charAt_set_ne hj _] at hc
        exact Or.inr ⟨by omega, hc.2.1, hc.2.2⟩
  | case4 buf next ps h0 h1 line pr song hsong =>
    unfold pr line at hsong
    rw [readLoop_noeol_some _ _ _ _ _ h0 h1 hsong]
    exact ⟨rfl, Nat.le_add_right _ _, fun j => Or.inl rfl⟩
  | case5 buf next ps h0 h1 line pr hnone ih =>
    unfold pr line at hnone ih
    rw [readLoop_noeol_none _ _ _ _ _ h0 h1 hnone]
    obtain ⟨ihlen, ihnext, ihj⟩ := ih
    refine ⟨ihlen, by omega, ?_⟩
    intro j
    rcases ihj j with hc | hc
    · exact Or.inl hc
    · exact Or.inr ⟨by omega, hc.2.1, hc.2.2⟩

theorem readLoop_count {σ : Type} (ops : ParserOps σ) (fn : String) :
    ∀ (buf : List Char) (next : Nat) (ps : σ × List (List Char) × Nat),
      next ≤ buf.length →
      (readLoop (traceOps ops) fn buf next ps).next ≤ buf.length
      ∧ (readLoop (traceOps ops) fn buf next ps).parser.2.1.length + next
          ≤ ps.2.1.length + (readLoop (traceOps ops) fn buf next ps).next := by
  intro buf next ps
  induction buf, next, ps using readLoop.induct (traceOps ops) fn with
  | case1 buf next ps h0 =>
    intro h
    rw [readLoop_exhausted _ _ _ _ _ h0]
    dsimp only
    omega
  | case2 buf next ps h0 eol h1 buf2 line pr song hsong =>
    intro h
    unfold pr line buf2 at hsong
    rw [readLoop_eol_some _ _ _ _ _ h0 h1 hsong]
    obtain ⟨hle, hlt⟩ := strpbrkIdx_some h1
    have hfed : ((traceOps ops).get ((traceOps ops).feed ps
        (cString (buf.set eol nulChar) next))).1.2.1.length = ps.2.1.length + 1 := by
      simp [traceOps]
    dsimp only
    rw [hfed]
    omega
  | case3 buf next ps h0 eol h1 buf2 line pr hnone ih =>
    intro h
    unfold pr line buf2 at hnone ih
    rw [readLoop_eol_none _ _ _ _ _ h0 h1 hnone]
    obtain ⟨hle, hlt⟩ := strpbrkIdx_some h1
    obtain ⟨ih1, ih2⟩ := ih (by simp [List.length_set]; omega)
    rw [List.length_set] at ih1
    have hfed : ((traceOps ops).get ((traceOps ops).feed ps
        (cString (buf.set eol nulChar) next))).1.2.1.length = ps.2.1.length + 1 := by
      simp [traceOps]
    rw [hfed] at ih2
    omega
  | case4 buf next ps h0 h1 line pr song hsong =>
    intro h
    unfold pr line at hsong
    rw [readLoop_noeol_some _ _ _ _ _ h0 h1 hsong]
    have hlen : (cString buf next).length ≤ buf.length - next := by
      have := cStringL_length_le (buf.drop next)
      rw [List.length_drop] at this
      exact this
    have hfed : ((traceOps ops).get ((traceOps ops).feed ps
        (cString buf next))).1.2.1.length = ps.2.1.length + 1 := by
      simp [traceOps]
    dsimp only
    rw [hfed]
    have hnl := lt_length_of_charAt_ne_nul h0
    have hpos := cString_length_pos h0
    omega
  | case5 buf next ps h0 h1 line pr hnone ih =>
    intro h
    unfold pr line at hnone ih
    rw [readLoop_noeol_none _ _ _ _ _ h0 h1 hnone]
    have hlen : (cString buf next).length ≤ buf.length - next := by
      have := cStringL_length_le (buf.drop next)
      rw [List.length_drop] at this
      exact this
    have hpos := cString_length_pos h0
    have hnl := lt_length_of_charAt_ne_nul h0
    obtain ⟨ih1, ih2⟩ := ih (by omega)
    have hfed : ((traceOps ops).get ((traceOps ops).feed ps
        (cString buf next))).1.2.1.length = ps.2.1.length + 1 := by
      simp [traceOps]
    rw [hfed] at ih2
    omega

/- ### Claim theorems: the line feeder (C3) -/

/-- C3 counterexample: the two terminator styles do not feed the same
sequence of lines — a "\r\n" pair makes the loop feed an extra empty line
between "A" and "B", because each of '\r' and '\n' is treated as its own
terminator. -/
theorem embcue_crlf_extra_empty_line_cex :
    fedLines ['A', '\r', '\n', 'B'] = [['A'], [], ['B']]
    ∧ fedLines ['A', '\n', 'B'] = [['A'], ['B']]
    ∧ fedLines ['A', '\r', '\n', 'B'] ≠ fedLines ['A', '\n', 'B'] := by
  have e1 : fedLines ['A', '\r', '\n', 'B'] = [['A'], [], ['B']] := by
    simp [fedLines, tracedProvider, EmbeddedCuePlaylist.Read, readLoop, traceOps,
          nullOps, charAt, strpbrkIdx, strpbrkL, cString, cStringL, isTermChar, nulChar]
  have e2 : fedLines ['A', '\n', 'B'] = [['A'], ['B']] := by
    simp [fedLines, tracedProvider, EmbeddedCuePlaylist.Read, readLoop, traceOps,
          nullOps, charAt, strpbrkIdx, strpbrkL, cString, cStringL, isTermChar, nulChar]
  exact ⟨e1, e2, by rw [e1, e2]; decide⟩

/-- C3 (amended): the lines fed to the parser are exactly the captured
text split at every individual terminator character ('\r' or '\n'), with
the terminator stripped and a final unterminated line running to the end
of the buffer (so a "\r\n" pair contributes an extra empty line); the
sequence of non-empty logical lines is nevertheless identical whether the
lines were joined with "\n" or with "\r\n". -/
theorem embcue_fed_lines_characterization :
    (∀ buf : List Char, nulChar ∉ buf → fedLines buf = specFedLines buf)
    ∧ (∀ ls : List (List Char),
        (∀ l ∈ ls, ∀ c ∈ l, isTermChar c = false ∧ c ≠ nulChar) →
        (fedLines (joinWith ['\n'] ls)).filter (fun l => !l.isEmpty)
            = ls.filter (fun l => !l.isEmpty)
        ∧ (fedLines (joinWith ['\r', '\n'] ls)).filter (fun l => !l.isEmpty)
            = ls.filter (fun l => !l.isEmpty)) := by
  constructor
  · exact fun buf hn => fedLines_eq_spec hn
  · intro ls h
    have hterm : ∀ l ∈ ls, ∀ c ∈ l, isTermChar c = false :=
      fun l hl c hc => (h l hl c hc).1
    have hnul : ∀ l ∈ ls, nulChar ∉ l :=
      fun l hl hm => (h l hl _ hm).2 rfl
    constructor
    · rw [fedLines_eq_spec (nul_not_mem_joinWith (by decide) hnul)]
      exact specFed_join_lf ls hterm
    · rw [fedLines_eq_spec (nul_not_mem_joinWith (by decide) hnul)]
      exact specFed_join_crlf ls hterm

theorem embcue_fed_lines_characterization_witness :
    (nulChar ∉ (['A', '\n', 'B'] : List Char))
    ∧ fedLines ['A', '\n', 'B'] = specFedLines ['A', '\n', 'B'] :=
  ⟨by decide, embcue_fed_lines_characterization.1 _ (by decide)⟩

/- ### Claim theorems: the pending-track drain path (C8, C1) -/

/-- C8: when the parser already holds a completed track at the start of a
read call, that track is returned immediately; the cursor and buffer are
unchanged, no line is fed and finalize is not invoked (the traced fed
list and finish count of the resulting state are untouched). -/
theorem embcue_read_pending_immediate {σ : Type} (ops : ParserOps σ)
    (p : EmbeddedCuePlaylist (σ × List (List Char) × Nat)) (song : Song)
    (h : (ops.get p.parser.1).2 = some song) :
    EmbeddedCuePlaylist.Read (traceOps ops) p
      = ({ p with parser := ((traceOps ops).get p.parser).1 }, some song)
    ∧ ((traceOps ops).get p.parser).1.2.1 = p.parser.2.1
    ∧ ((traceOps ops).get p.parser).1.2.2 = p.parser.2.2 := by
  refine ⟨?_, by simp [traceOps], by simp [traceOps]⟩
  exact Read_pending _ _ (by simp [traceOps, h])

theorem embcue_read_pending_immediate_witness :
    ((scriptOps.get pendingProvider.parser.1).2 = some { uri := "pend" })
    ∧ (EmbeddedCuePlaylist.Read (traceOps scriptOps) pendingProvider
        = ({ pendingProvider with
              parser := ((traceOps scriptOps).get pendingProvider.parser).1 },
           some { uri := "pend" })
      ∧ ((traceOps scriptOps).get pendingProvider.parser).1.2.1
          = pendingProvider.parser.2.1
      ∧ ((traceOps scriptOps).get pendingProvider.parser).1.2.2
          = pendingProvider.parser.2.2) :=
  ⟨rfl, embcue_read_pending_immediate scriptOps pendingProvider { uri := "pend" } rfl⟩

/-- C1 failing run: the first read returns a song produced inside the
loop, duly rewritten to "album.flac"; the second read drains the pending
song and returns it with its original URI "embedded.wav" — the rewrite is
skipped on the pending-track path. -/
theorem embcue_read_pending_skips_uri_rewrite :
    ((EmbeddedCuePlaylist.Read scriptOps c1Provider).2 = some { uri := "album.flac" })
    ∧ ((EmbeddedCuePlaylist.Read scriptOps
          (EmbeddedCuePlaylist.Read scriptOps c1Provider).1).2
        = some { uri := "embedded.wav" })
    ∧ ((EmbeddedCuePlaylist.Read scriptOps
          (EmbeddedCuePlaylist.Read scriptOps c1Provider).1).1.filename
        = "album.flac") := by
  refine ⟨?_, ?_, ?_⟩ <;>
    simp [EmbeddedCuePlaylist.Read, readLoop, scriptOps, c1Provider, charAt,
          strpbrkIdx, strpbrkL, cString, cStringL, isTermChar, nulChar,
          Song.ReplaceURI]

/- ### Claim theorems: end-of-sequence behaviour (C2) -/

/-- C2 counterexample: with an empty cuesheet and a parser that never
yields a song, the first read returns end-of-sequence after invoking
`Finish` once, and the second read returns end-of-sequence again — after
invoking `Finish` a second time (the traced finish count reaches 2). -/
theorem embcue_finish_invoked_twice_cex :
    ((EmbeddedCuePlaylist.Read (traceOps nullOps) (tracedProvider [])).2 = none)
    ∧ ((EmbeddedCuePlaylist.Read (traceOps nullOps) (tracedProvider [])).1.parser.2.2 = 1)
    ∧ ((EmbeddedCuePlaylist.Read (traceOps nullOps)
          (EmbeddedCuePlaylist.Read (traceOps nullOps) (tracedProvider [])).1).2 = none)
    ∧ ((EmbeddedCuePlaylist.Read (traceOps nullOps)
          (EmbeddedCuePlaylist.Read (traceOps nullOps) (tracedProvider [])).1).1.parser.2.2
        = 2) := by
  refine ⟨?_, ?_, ?_, ?_⟩ <;>
    simp [EmbeddedCuePlaylist.Read, readLoop, traceOps, nullOps, tracedProvider,
          charAt, nulChar]

/-- A read call on an exhausted cursor (with a parser whose Get never
yields a song) feeds nothing, invokes Finish exactly once more, leaves
the buffer and cursor alone, and returns end-of-sequence. -/
theorem Read_exhausted_traced {σ : Type} (ops : ParserOps σ)
    (p : EmbeddedCuePlaylist (σ × List (List Char) × Nat))
    (hget : ∀ s, (ops.get s).2 = none)
    (hx : charAt p.cuesheet p.next = nulChar) :
    (EmbeddedCuePlaylist.Read (traceOps ops) p).2 = none
    ∧ (EmbeddedCuePlaylist.Read (traceOps ops) p).1.parser.2.1 = p.parser.2.1
    ∧ (EmbeddedCuePlaylist.Read (traceOps ops) p).1.parser.2.2 = p.parser.2.2 + 1
    ∧ (EmbeddedCuePlaylist.Read (traceOps ops) p).1.next = p.next
    ∧ (EmbeddedCuePlaylist.Read (traceOps ops) p).1.cuesheet = p.cuesheet := by
  rw [Read_finish_path (traceOps ops) p (by simp [traceOps, hget])
        (by rw [readLoop_exhausted _ _ _ _ _ hx])]
  rw [readLoop_exhausted _ _ _ _ _ hx]
  simp [traceOps, hget]

/-- C2 (amended): the component invokes the parser's finalize on every
read call that exhausts line-feeding without a track — once on the read
that first returns end-of-sequence and once more on each later read, not
exactly once per provider lifetime.  After end-of-sequence is first
returned, a subsequent read feeds no line (no re-scan: the traced fed
list is unchanged and the cursor stays put) and, with the parser still
yielding no track, returns end-of-sequence again. -/
theorem embcue_read_after_eos {σ : Type} (ops : ParserOps σ)
    (p : EmbeddedCuePlaylist (σ × List (List Char) × Nat))
    (hget : ∀ s, (ops.get s).2 = none)
    (h1 : (EmbeddedCuePlaylist.Read (traceOps ops) p).2 = none) :
    (EmbeddedCuePlaylist.Read (traceOps ops)
        (EmbeddedCuePlaylist.Read (traceOps ops) p).1).2 = none
    ∧ (EmbeddedCuePlaylist.Read (traceOps ops)
        (EmbeddedCuePlaylist.Read (traceOps ops) p).1).1.parser.2.1
      = (EmbeddedCuePlaylist.Read (traceOps ops) p).1.parser.2.1
    ∧ (EmbeddedCuePlaylist.Read (traceOps ops)
        (EmbeddedCuePlaylist.Read (traceOps ops) p).1).1.parser.2.2
      = (EmbeddedCuePlaylist.Read (traceOps ops) p).1.parser.2.2 + 1
    ∧ (EmbeddedCuePlaylist.Read (traceOps ops)
        (EmbeddedCuePlaylist.Read (traceOps ops) p).1).1.next
      = (EmbeddedCuePlaylist.Read (traceOps ops) p).1.next
    ∧ (EmbeddedCuePlaylist.Read (traceOps ops)
        (EmbeddedCuePlaylist.Read (traceOps ops) p).1).1.cuesheet
      = (EmbeddedCuePlaylist.Read (traceOps ops) p).1.cuesheet := by
  have htget : ∀ s : σ × List (List Char) × Nat, ((traceOps ops).get s).2 = none := by
    intro s
    simp [traceOps, hget]
  have hsong := readLoop_song_none_of_get_none (traceOps ops) p.filename htget
    p.cuesheet p.next ((traceOps ops).get p.parser).1
  have hx : charAt (EmbeddedCuePlaylist.Read (traceOps ops) p).1.cuesheet
      (EmbeddedCuePlaylist.Read (traceOps ops) p).1.next = nulChar := by
    rw [Read_finish_path (traceOps ops) p (htget _) hsong]
    exact readLoop_none_exhausted (traceOps ops) p.filename p.cuesheet p.next
      ((traceOps ops).get p.parser).1 hsong
  exact Read_exhausted_traced ops _ hget hx

theorem embcue_read_after_eos_witness :
    (∀ s : Unit, (nullOps.get s).2 = none)
    ∧ ((EmbeddedCuePlaylist.Read (traceOps nullOps) (tracedProvider ['x'])).2 = none)
    ∧ ((EmbeddedCuePlaylist.Read (traceOps nullOps)
          (EmbeddedCuePlaylist.Read (traceOps nullOps) (tracedProvider ['x'])).1).2 = none
      ∧ (EmbeddedCuePlaylist.Read (traceOps nullOps)
          (EmbeddedCuePlaylist.Read (traceOps nullOps) (tracedProvider ['x'])).1).1.parser.2.1
        = (EmbeddedCuePlaylist.Read (traceOps nullOps) (tracedProvider ['x'])).1.parser.2.1
      ∧ (EmbeddedCuePlaylist.Read (traceOps nullOps)
          (EmbeddedCuePlaylist.Read (traceOps nullOps) (tracedProvider ['x'])).1).1.parser.2.2
        = (EmbeddedCuePlaylist.Read (traceOps nullOps) (tracedProvider ['x'])).1.parser.2.2 + 1
      ∧ (EmbeddedCuePlaylist.Read (traceOps nullOps)
          (EmbeddedCuePlaylist.Read (traceOps nullOps) (tracedProvider ['x'])).1).1.next
        = (EmbeddedCuePlaylist.Read (traceOps nullOps) (tracedProvider ['x'])).1.next
      ∧ (EmbeddedCuePlaylist.Read (traceOps nullOps)
          (EmbeddedCuePlaylist.Read (traceOps nullOps) (tracedProvider ['x'])).1).1.cuesheet
        = (EmbeddedCuePlaylist.Read (traceOps nullOps) (tracedProvider ['x'])).1.cuesheet) := by
  refine ⟨fun _ => rfl, ?_, ?_⟩
  · simp [EmbeddedCuePlaylist.Read, readLoop, traceOps, nullOps, tracedProvider,
          charAt, strpbrkIdx, strpbrkL, cString, cStringL, isTermChar, nulChar]
  · exact embcue_read_after_eos nullOps (tracedProvider ['x']) (fun _ => rfl)
      (by simp [EmbeddedCuePlaylist.Read, readLoop, traceOps, nullOps, tracedProvider,
                charAt, strpbrkIdx, strpbrkL, cString, cStringL, isTermChar, nulChar])

/- ### Claim theorems: buffer mutation (C9) and termination (C10) -/

/-- C9 counterexample: reading a provider over "a\nb" overwrites the line
terminator in the captured buffer with NUL — the captured text is not
left intact by read. -/
theorem embcue_read_mutates_buffer_cex :
    ((EmbeddedCuePlaylist.Read (traceOps nullOps) (tracedProvider ['a', '\n', 'b'])).1.cuesheet
      = ['a', nulChar, 'b'])
    ∧ (['a', nulChar, 'b'] : List Char) ≠ ['a', '\n', 'b'] := by
  constructor
  · simp [EmbeddedCuePlaylist.Read, readLoop, traceOps, nullOps, tracedProvider,
          charAt, strpbrkIdx, strpbrkL, cString, cStringL, isTermChar, nulChar]
  · decide

/-- C9 (amended): a read call can modify the captured text, but only by
overwriting consumed line terminators in place with NUL: the buffer keeps
its length, the cursor never moves backwards, and every position either
still holds its old character or held a terminator ('\r' or '\n'), lies
between the old and the new cursor, and now holds NUL. -/
theorem embcue_read_buffer_mutation {σ : Type} (ops : ParserOps σ)
    (p : EmbeddedCuePlaylist σ) :
    (EmbeddedCuePlaylist.Read ops p).1.cuesheet.length = p.cuesheet.length
    ∧ p.next ≤ (EmbeddedCuePlaylist.Read ops p).1.next
    ∧ ∀ j, charAt (EmbeddedCuePlaylist.Read ops p).1.cuesheet j = charAt p.cuesheet j
        ∨ (p.next ≤ j ∧ j < (EmbeddedCuePlaylist.Read ops p).1.next
           ∧ isTermChar (charAt p.cuesheet j) = true
           ∧ charAt (EmbeddedCuePlaylist.Read ops p).1.cuesheet j = nulChar) := by
  cases hg : (ops.get p.parser).2 with
  | some song =>
    rw [Read_pending ops p hg]
    exact ⟨rfl, Nat.le_refl _, fun j => Or.inl rfl⟩
  | none =>
    cases hl : (readLoop ops p.filename p.cuesheet p.next (ops.get p.parser).1).song with
    | some song =>
      rw [Read_loop_song ops p hg hl]
      exact readLoop_buffer_frame ops p.filename p.cuesheet p.next (ops.get p.parser).1
    | none =>
      rw [Read_finish_path ops p hg hl]
      exact readLoop_buffer_frame ops p.filename p.cuesheet p.next (ops.get p.parser).1

/-- C10: every read call terminates — `Read` and its loop are total
functions of the provider state (defined by well-founded recursion on the
distance from the cursor to the end of the buffer) — and, whenever the
cursor starts within the buffer: it advances monotonically, never past
the end of the buffer, and the number of lines fed during the call (one
per loop iteration) is at most the number of unconsumed characters. -/
theorem embcue_read_terminates {σ : Type} (ops : ParserOps σ)
    (p : EmbeddedCuePlaylist (σ × List (List Char) × Nat))
    (h : p.next ≤ p.cuesheet.length) :
    p.next ≤ (EmbeddedCuePlaylist.Read (traceOps ops) p).1.next
    ∧ (EmbeddedCuePlaylist.Read (traceOps ops) p).1.next ≤ p.cuesheet.length
    ∧ (EmbeddedCuePlaylist.Read (traceOps ops) p).1.parser.2.1.length
        ≤ p.parser.2.1.length + (p.cuesheet.length - p.next) := by
  cases hg : ((traceOps ops).get p.parser).2 with
  | some song =>
    rw [Read_pending _ p hg]
    refine ⟨Nat.le_refl _, h, ?_⟩
    have hfed : ((traceOps ops).get p.parser).1.2.1 = p.parser.2.1 := by
      simp [traceOps]
    dsimp only
    rw [hfed]
    omega
  | none =>
    have hmono := (readLoop_buffer_frame (traceOps ops) p.filename p.cuesheet p.next
      ((traceOps ops).get p.parser).1).2.1
    obtain ⟨hb1, hb2⟩ := readLoop_count ops p.filename p.cuesheet p.next
      ((traceOps ops).get p.parser).1 h
    have hfed : ((traceOps ops).get p.parser).1.2.1 = p.parser.2.1 := by
      simp [traceOps]
    rw [hfed] at hb2
    cases hl : (readLoop (traceOps ops) p.filename p.cuesheet p.next
        ((traceOps ops).get p.parser).1).song with
    | some song =>
      rw [Read_loop_song _ p hg hl]
      dsimp only
      exact ⟨hmono, hb1, by omega⟩
    | none =>
      rw [Read_finish_path _ p hg hl]
      refine ⟨hmono, hb1, ?_⟩
      have hfed2 : ∀ s : σ × List (List Char) × Nat,
          ((traceOps ops).get ((traceOps ops).finish s)).1.2.1 = s.2.1 := by
        intro s
        simp [traceOps]
      dsimp only
      rw [hfed2]
      omega

theorem embcue_read_terminates_witness :
    ((tracedProvider ['A']).next ≤ (tracedProvider ['A']).cuesheet.length)
    ∧ ((tracedProvider ['A']).next
        ≤ (EmbeddedCuePlaylist.Read (traceOps nullOps) (tracedProvider ['A'])).1.next
      ∧ (EmbeddedCuePlaylist.Read (traceOps nullOps) (tracedProvider ['A'])).1.next
        ≤ (tracedProvider ['A']).cuesheet.length
      ∧ (EmbeddedCuePlaylist.Read (traceOps nullOps) (tracedProvider ['A'])).1.parser.2.1.length
        ≤ (tracedProvider ['A']).parser.2.1.length
          + ((tracedProvider ['A']).cuesheet.length - (tracedProvider ['A']).next)) :=
  ⟨by decide, embcue_read_terminates nullOps (tracedProvider ['A']) (by decide)⟩
